/- Verification development for the YamlPartitioner repository.

   Part 1 embeds the rendezvous (highest-random-weight) hash table from
   lib/hrw (rdv.go): the xorshift-multiply mixer, node bookkeeping
   (nodeNames / nodeHashes / the name-to-index map), Get / GetN /
   getNBestNodesForKey, Add / addNode and Remove.

   Go byte strings are modelled as lists of naturals; Go's `map[string]int`
   is modelled as an association list together with map-style insert
   (replace-or-append, so the map size matches `len(m)`), lookup
   (`alookup`), and erase.  64-bit unsigned arithmetic is modelled on Nat
   with explicit reduction mod 2^64 where Go wraps. -/
import Mathlib

namespace YP

/-- Go `[]byte` (and Go strings after `bytesutil.ToUnsafeBytes`). -/
abbrev Bytes := List Nat

/-- Lookup in an association list, as Go map indexing with `ok`:
`v, ok := m[k]`.  Returns the value of the first matching entry. -/
def alookup {α β : Type} [DecidableEq α] : List (α × β) → α → Option β
  | [], _ => none
  | p :: rest, k => if p.1 = k then some p.2 else alookup rest k

/-- Go map assignment `m[k] = v`: replace the value if the key is present,
append a fresh entry otherwise (so the entry count matches Go's `len(m)`). -/
def mapInsert {α β : Type} [DecidableEq α] (m : List (α × β)) (k : α) (v : β) :
    List (α × β) :=
  if (alookup m k).isSome then
    m.map (fun p => if p.1 = k then (k, v) else p)
  else m ++ [(k, v)]

/-- Go `delete(m, k)`. -/
def mapErase {α β : Type} [DecidableEq α] (m : List (α × β)) (k : α) :
    List (α × β) :=
  m.filter (fun p => decide (p.1 ≠ k))

/-- `xorshiftMult64` from lib/hrw:
`x ^= x >> 12; x ^= x << 25; x ^= x >> 27; return x * 2685821657736338717`,
over 64-bit unsigned arithmetic.  The initial reduction mod 2^64 embeds the
`uint64` parameter type. -/
def xorshiftMult64 (x : Nat) : Nat :=
  let x0 := x % 2 ^ 64
  let x1 := x0 ^^^ (x0 >>> 12)
  let x2 := x1 ^^^ ((x1 <<< 25) % 2 ^ 64)
  let x3 := x2 ^^^ (x2 >>> 27)
  (x3 * 2685821657736338717) % 2 ^ 64

/-- The per-node weight `mix(keyHash XOR nodeHash)`. -/
def nodeWeight (keyHash nodeHash : Nat) : Nat :=
  xorshiftMult64 (keyHash ^^^ nodeHash)

/-- The `Rendezvous` struct from lib/hrw: a pluggable 64-bit byte hasher,
the name-to-index map `nodes`, and the parallel `nodeHashes` / `nodeNames`
slices.  (The mutex only serializes mutation and has no pure content.) -/
structure Rendezvous where
  hasher : Bytes → Nat
  nodes : List (Bytes × Nat)
  nodeHashes : List Nat
  nodeNames : List Bytes

namespace Rendezvous

/-- `addNode`: no-op if the name is already present, otherwise record the
new index in the map and append the name and its hash. -/
def addNode (r : Rendezvous) (node : Bytes) : Rendezvous :=
  if (alookup r.nodes node).isSome then r
  else
    { r with
      nodes := mapInsert r.nodes node r.nodeNames.length
      nodeNames := r.nodeNames ++ [node]
      nodeHashes := r.nodeHashes ++ [r.hasher node] }

/-- `Add(nodes ...string)`: `addNode` for each argument in order. -/
def Add (r : Rendezvous) (nodes : List Bytes) : Rendezvous :=
  nodes.foldl addNode r

/-- The loop `for i, nodeHash := range r.nodeHashes[1:] { ... }` of
`getNBestNodesForKey`: `i` is the actual index of the node hash at the head
of the remaining list, `maxIdx`/`maxHash` the current champion. -/
def bestLoop (keyHash : Nat) : List Nat → Nat → Nat → Nat → Nat × Nat
  | [], _, maxIdx, maxHash => (maxIdx, maxHash)
  | nodeHash :: rest, i, maxIdx, maxHash =>
    let h := nodeWeight keyHash nodeHash
    if maxHash < h then bestLoop keyHash rest (i + 1) i h
    else bestLoop keyHash rest (i + 1) maxIdx maxHash

/-- The replica-collection loop of `getNBestNodesForKey`:
`nodeIndecies[i] = maxIdx; maxIdx++; if maxIdx >= len(r.nodes) { maxIdx = 0 }`. -/
def wrapLoop (n : Nat) : Nat → Nat → List Nat
  | 0, _ => []
  | count + 1, idx => idx :: wrapLoop n count (if n ≤ idx + 1 then 0 else idx + 1)

/-- `getNBestNodesForKey`.  The empty `nodeHashes` case (where Go would
panic on `r.nodeHashes[0]`) is unreachable through `Get`/`GetN`, which
guard on an empty table. -/
def getNBestNodesForKey (r : Rendezvous) (key : Bytes) (replicasCount : Int) :
    List Nat :=
  if r.nodes.length = 1 then [0]
  else if (r.nodes.length : Int) ≤ replicasCount then List.range r.nodes.length
  else
    let rc : Nat := if replicasCount < 1 then 1 else replicasCount.toNat
    let keyHash := r.hasher key
    match r.nodeHashes with
    | [] => []
    | h0 :: rest => wrapLoop r.nodes.length rc
        (bestLoop keyHash rest 1 0 (nodeWeight keyHash h0)).1

/-- `Get`: the single best node name; the empty byte string on an empty
table (Go returns `""`). -/
def Get (r : Rendezvous) (key : Bytes) : Bytes :=
  if r.nodes.length = 0 then []
  else r.nodeNames.getD ((r.getNBestNodesForKey key 1).headD 0) []

/-- `GetN`: the names of the N best nodes.  Go accumulates them in a
`map[string]struct{}`; the model returns the list of looked-up names, which
(for a well-formed table) is duplicate-free, so it denotes the same set. -/
def GetN (r : Rendezvous) (key : Bytes) (replicasCount : Int) : List Bytes :=
  if r.nodes.length = 0 then []
  else (r.getNBestNodesForKey key replicasCount).map
    (fun idx => r.nodeNames.getD idx [])

/-- `Remove`.  Translated step for step; every slice access that could
panic in Go is guarded and yields `none` (Go would crash there).  Note the
source reads `r.nodes[node]` without the `ok` flag, so a missing name reads
index 0 (Go's zero value). -/
def Remove (r : Rendezvous) (node : Bytes) : Option Rendezvous :=
  if r.nodes.length = 0 then some r
  else
    let nodeIdx := (alookup r.nodes node).getD 0
    let lastIdx := r.nodeNames.length - 1
    if nodeIdx < r.nodeNames.length ∧ nodeIdx < r.nodeHashes.length ∧
        lastIdx < r.nodeHashes.length then
      let nodeNames := (r.nodeNames.set nodeIdx (r.nodeNames.getD lastIdx [])).take lastIdx
      let nodeHashes := (r.nodeHashes.set nodeIdx (r.nodeHashes.getD lastIdx 0)).take lastIdx
      match nodeNames[nodeIdx]? with
      | some moved =>
        some { r with
          nodes := mapInsert (mapErase r.nodes node) moved nodeIdx
          nodeNames := nodeNames
          nodeHashes := nodeHashes }
      | none => none
    else none

/-- Well-formedness of a `Rendezvous` table (the documented invariants):
the slices are parallel, names are distinct, and the `nodes` map is exactly
the name-to-index mapping. -/
def WF (r : Rendezvous) : Prop :=
  r.nodes.length = r.nodeNames.length ∧
  r.nodeHashes.length = r.nodeNames.length ∧
  r.nodeNames.Nodup ∧
  (∀ i < r.nodeNames.length, alookup r.nodes (r.nodeNames.getD i []) = some i) ∧
  (∀ p ∈ r.nodes, p.2 < r.nodeNames.length ∧ r.nodeNames.getD p.2 [] = p.1)

instance (r : Rendezvous) : Decidable (WF r) := by
  unfold WF; infer_instance

/-- `a` is the lowest index of `hashes` attaining the maximal weight for
`keyHash` (the argmax with ties broken by lowest index). -/
def IsBestIdx (keyHash : Nat) (hashes : List Nat) (a : Nat) : Prop :=
  a < hashes.length ∧
  (∀ i < hashes.length,
    nodeWeight keyHash (hashes.getD i 0) ≤ nodeWeight keyHash (hashes.getD a 0)) ∧
  ∀ i < a, nodeWeight keyHash (hashes.getD i 0) < nodeWeight keyHash (hashes.getD a 0)

/-- The index `getNBestNodesForKey` starts its window at. -/
def bestIdx (keyHash : Nat) : List Nat → Nat
  | [] => 0
  | h0 :: rest => (bestLoop keyHash rest 1 0 (nodeWeight keyHash h0)).1

lemma bestLoop_nil (kh i mI mH : Nat) : bestLoop kh [] i mI mH = (mI, mH) := rfl

lemma bestLoop_cons (kh x i mI mH : Nat) (t : List Nat) :
    bestLoop kh (x :: t) i mI mH =
      if mH < nodeWeight kh x then bestLoop kh t (i + 1) i (nodeWeight kh x)
      else bestLoop kh t (i + 1) mI mH := rfl

/-- Loop invariant of `bestLoop`: either the initial champion survives and
dominates the whole tail, or the result is the first strict improvement and
dominates everything. -/
lemma bestLoop_spec (kh : Nat) (t : List Nat) : ∀ i mI mH : Nat,
    (bestLoop kh t i mI mH = (mI, mH) ∧
      ∀ k < t.length, nodeWeight kh (t.getD k 0) ≤ mH) ∨
    ∃ k < t.length,
      bestLoop kh t i mI mH = (i + k, nodeWeight kh (t.getD k 0)) ∧
      mH < nodeWeight kh (t.getD k 0) ∧
      (∀ j < t.length, nodeWeight kh (t.getD j 0) ≤ nodeWeight kh (t.getD k 0)) ∧
      (∀ j < k, nodeWeight kh (t.getD j 0) < nodeWeight kh (t.getD k 0)) := by
  induction t with
  | nil =>
    intro i mI mH
    exact Or.inl ⟨rfl, by intro k hk; simp at hk⟩
  | cons x t ih =>
    intro i mI mH
    by_cases hcmp : mH < nodeWeight kh x
    · rw [bestLoop_cons, if_pos hcmp]
      rcases ih (i + 1) i (nodeWeight kh x) with ⟨heq, hbound⟩ | ⟨k, hk, heq, hlt, hub, hstr⟩
      · refine Or.inr ⟨0, by simp, ?_, by simpa using hcmp, ?_, ?_⟩
        · simpa using heq
        · intro j hj
          match j with
          | 0 => simp
          | j + 1 => simpa using hbound j (by simpa using hj)
        · intro j hj; omega
      · refine Or.inr ⟨k + 1, by simpa using hk, ?_, ?_, ?_, ?_⟩
        · have harith : i + 1 + k = i + (k + 1) := by omega
          rw [heq, harith, List.getD_cons_succ]
        · simp only [List.getD_cons_succ]
          exact lt_trans hcmp hlt
        · intro j hj
          match j with
          | 0 => simpa using le_of_lt hlt
          | j + 1 => simpa using hub j (by simpa using hj)
        · intro j hj
          match j with
          | 0 => simpa using hlt
          | j + 1 => simpa using hstr j (by omega)
    · rw [bestLoop_cons, if_neg hcmp]
      rcases ih (i + 1) mI mH with ⟨heq, hbound⟩ | ⟨k, hk, heq, hlt, hub, hstr⟩
      · refine Or.inl ⟨heq, ?_⟩
        intro j hj
        match j with
        | 0 => simpa using le_of_not_lt hcmp
        | j + 1 => simpa using hbound j (by simpa using hj)
      · refine Or.inr ⟨k + 1, by simpa using hk, ?_, ?_, ?_, ?_⟩
        · have harith : i + 1 + k = i + (k + 1) := by omega
          rw [heq, harith, List.getD_cons_succ]
        · simp only [List.getD_cons_succ]
          exact hlt
        · intro j hj
          match j with
          | 0 =>
            simp only [List.getD_cons_zero, List.getD_cons_succ]
            exact le_trans (le_of_not_lt hcmp) (le_of_lt hlt)
          | j + 1 => simpa using hub j (by simpa using hj)
        · intro j hj
          match j with
          | 0 =>
            simp only [List.getD_cons_zero, List.getD_cons_succ]
            exact lt_of_le_of_lt (le_of_not_lt hcmp) hlt
          | j + 1 => simpa using hstr j (by omega)

/-- `bestIdx` is the lowest argmax of the node weights. -/
lemma bestIdx_isBest (kh h0 : Nat) (rest : List Nat) :
    IsBestIdx kh (h0 :: rest) (bestIdx kh (h0 :: rest)) := by
  have hspec := bestLoop_spec kh rest 1 0 (nodeWeight kh h0)
  rcases hspec with ⟨heq, hbound⟩ | ⟨k, hk, heq, hlt, hub, hstr⟩
  · have hb : bestIdx kh (h0 :: rest) = 0 := by simp [bestIdx, heq]
    rw [hb]
    refine ⟨by simp, ?_, by intro i hi; omega⟩
    intro i hi
    match i with
    | 0 => simp
    | i + 1 => simpa using hbound i (by simpa using hi)
  · have hb : bestIdx kh (h0 :: rest) = k + 1 := by
      simp [bestIdx, heq]; omega
    rw [hb]
    refine ⟨by simpa using hk, ?_, ?_⟩
    · intro i hi
      match i with
      | 0 => simpa using le_of_lt hlt
      | i + 1 => simpa using hub i (by simpa using hi)
    · intro i hi
      match i with
      | 0 => simpa using hlt
      | i + 1 => simpa using hstr i (by omega)

lemma bestIdx_lt (kh : Nat) (hs : List Nat) (h : hs ≠ []) : bestIdx kh hs < hs.length := by
  match hs with
  | h0 :: rest => exact (bestIdx_isBest kh h0 rest).1

lemma wrapLoop_zero (n a : Nat) : wrapLoop n 0 a = [] := rfl

lemma wrapLoop_succ (n c a : Nat) :
    wrapLoop n (c + 1) a = a :: wrapLoop n c (if n ≤ a + 1 then 0 else a + 1) := rfl

/-- The wrap-around collection loop produces the window
`a, (a+1) % n, ..., (a+c-1) % n`. -/
lemma wrapLoop_eq_range_map (n : Nat) :
    ∀ c a : Nat, a < n → wrapLoop n c a = (List.range c).map (fun j => (a + j) % n) := by
  intro c
  induction c with
  | zero => intro a _; simp [wrapLoop_zero]
  | succ c ih =>
    intro a ha
    have hlt : (if n ≤ a + 1 then 0 else a + 1) < n := by
      split <;> omega
    have hfun : ((fun j => (a + j) % n) ∘ Nat.succ) =
        (fun j => ((if n ≤ a + 1 then 0 else a + 1) + j) % n) := by
      funext j
      simp only [Function.comp_apply]
      by_cases hc : n ≤ a + 1
      · rw [if_pos hc]
        have hxx : a + Nat.succ j = n + j := by omega
        rw [hxx, Nat.add_mod_left, Nat.zero_add]
      · rw [if_neg hc]
        have hxx : a + Nat.succ j = a + 1 + j := by omega
        rw [hxx]
    rw [wrapLoop_succ, List.range_succ_eq_map, List.map_cons, List.map_map, hfun,
      ih _ hlt]
    simp [Nat.mod_eq_of_lt ha]

lemma wrapLoop_length (n : Nat) : ∀ c a, (wrapLoop n c a).length = c := by
  intro c
  induction c with
  | zero => intro a; rfl
  | succ c ih => intro a; rw [wrapLoop_succ]; simp [ih]

lemma wrapLoop_mem_lt (n : Nat) (hn : 0 < n) (c a : Nat) (ha : a < n) :
    ∀ x ∈ wrapLoop n c a, x < n := by
  rw [wrapLoop_eq_range_map n c a ha]
  intro x hx
  rcases List.mem_map.mp hx with ⟨j, _, rfl⟩
  exact Nat.mod_lt _ hn

lemma wrapLoop_nodup (n c a : Nat) (hc : c ≤ n) (ha : a < n) :
    (wrapLoop n c a).Nodup := by
  rw [wrapLoop_eq_range_map n c a ha]
  refine List.Nodup.map_on ?_ (List.nodup_range c)
  intro i hi j hj heq
  rw [List.mem_range] at hi hj
  rcases le_total i j with hij | hij
  · have hmod : (a + i) ≡ (a + j) [MOD n] := heq
    have hdvd := (Nat.modEq_iff_dvd' (by omega)).mp hmod
    have hji : a + j - (a + i) = j - i := by omega
    rw [hji] at hdvd
    have := Nat.eq_zero_of_dvd_of_lt hdvd
    omega
  · have hmod : (a + j) ≡ (a + i) [MOD n] := heq.symm
    have hdvd := (Nat.modEq_iff_dvd' (by omega)).mp hmod
    have hji : a + i - (a + j) = i - j := by omega
    rw [hji] at hdvd
    have := Nat.eq_zero_of_dvd_of_lt hdvd
    omega

lemma alookup_mem {α β : Type} [DecidableEq α] {m : List (α × β)} {k : α} {v : β}
    (h : alookup m k = some v) : (k, v) ∈ m := by
  induction m with
  | nil => simp [alookup] at h
  | cons p rest ih =>
    rcases p with ⟨a, b⟩
    rw [alookup] at h
    by_cases hak : a = k
    · rw [if_pos hak] at h
      simp only [List.mem_cons]
      left
      have hbv : b = v := by simpa using h
      rw [← hak, ← hbv]
    · rw [if_neg hak] at h
      exact List.mem_cons_of_mem _ (ih h)

lemma mem_of_getD {α : Type} (l : List α) (d : α) (i : Nat) (h : i < l.length) :
    l.getD i d ∈ l := by
  rw [List.getD_eq_getElem l d h]
  exact List.getElem_mem h

lemma getD_append_left {α : Type} (l l2 : List α) (d : α) (i : Nat) (h : i < l.length) :
    (l ++ l2).getD i d = l.getD i d := by
  have h2 : i < (l ++ l2).length := by simp; omega
  rw [List.getD_eq_getElem _ d h2, List.getD_eq_getElem l d h]
  exact List.getElem_append_left h

lemma getD_append_length {α : Type} (l : List α) (x d : α) :
    (l ++ [x]).getD l.length d = x := by
  have h2 : l.length < (l ++ [x]).length := by simp
  rw [List.getD_eq_getElem _ d h2]
  exact List.getElem_concat_length l x l.length rfl h2

lemma map_getD_nodup (names : List Bytes) (idxs : List Nat) (hnd : names.Nodup)
    (hlt : ∀ i ∈ idxs, i < names.length) (hidx : idxs.Nodup) :
    (idxs.map (fun i => names.getD i [])).Nodup := by
  refine hidx.map_on ?_
  intro i hi j hj heq
  have hib := hlt i hi
  have hjb := hlt j hj
  rw [List.getD_eq_getElem names [] hib, List.getD_eq_getElem names [] hjb] at heq
  have hfun := List.nodup_iff_injective_getElem.mp hnd
  have hinj : (⟨i, hib⟩ : Fin names.length) = ⟨j, hjb⟩ :=
    @hfun ⟨i, hib⟩ ⟨j, hjb⟩ heq
  simpa using hinj

lemma map_getD_range {α : Type} (l : List α) (d : α) :
    (List.range l.length).map (fun i => l.getD i d) = l := by
  refine List.ext_getElem (by simp) ?_
  intro i ha hb
  have hrange : i < (List.range l.length).length := by simpa using hb
  have hi : i < l.length := hb
  rw [List.getElem_map, List.getElem_range, List.getD_eq_getElem l d hi]

lemma range_mod_window_nodup (n a c : Nat) (ha : a < n) (hc : c ≤ n) :
    ((List.range c).map (fun j => (a + j) % n)).Nodup := by
  rw [← wrapLoop_eq_range_map n c a ha]
  exact wrapLoop_nodup n c a hc ha

/-- The champion after appending one more node hash: either the new hash
strictly improves on the previous best weight and wins, or nothing changes. -/
lemma bestLoop_append (kh h : Nat) (t : List Nat) : ∀ i mI mH : Nat,
    bestLoop kh (t ++ [h]) i mI mH =
      if (bestLoop kh t i mI mH).2 < nodeWeight kh h
      then (i + t.length, nodeWeight kh h) else bestLoop kh t i mI mH := by
  induction t with
  | nil =>
    intro i mI mH
    rw [List.nil_append, bestLoop_cons]
    simp [bestLoop_nil]
  | cons x t ih =>
    intro i mI mH
    rw [List.cons_append, bestLoop_cons, bestLoop_cons]
    by_cases hc : mH < nodeWeight kh x
    · rw [if_pos hc, if_pos hc, ih]
      have harith : i + 1 + t.length = i + (x :: t).length := by simp; omega
      rw [harith]
    · rw [if_neg hc, if_neg hc, ih]
      have harith : i + 1 + t.length = i + (x :: t).length := by simp; omega
      rw [harith]

lemma bestIdx_append (kh h h0 : Nat) (rest : List Nat) :
    bestIdx kh ((h0 :: rest) ++ [h]) =
      if (bestLoop kh rest 1 0 (nodeWeight kh h0)).2 < nodeWeight kh h
      then (h0 :: rest).length else bestIdx kh (h0 :: rest) := by
  rw [List.cons_append]
  show (bestLoop kh (rest ++ [h]) 1 0 (nodeWeight kh h0)).1 = _
  rw [bestLoop_append]
  by_cases hc : (bestLoop kh rest 1 0 (nodeWeight kh h0)).2 < nodeWeight kh h
  · rw [if_pos hc, if_pos hc]
    simp [Nat.add_comm]
  · rw [if_neg hc, if_neg hc]
    rfl

/-- The main branch of `getNBestNodesForKey` (at least two nodes, fewer
replicas than nodes): the window of `max(replicas, 1)` indices starting at
the argmax. -/
lemma getNBest_main (r : Rendezvous) (key : Bytes) (rc : Int)
    (hlen : r.nodes.length = r.nodeNames.length)
    (hlenH : r.nodeHashes.length = r.nodeNames.length)
    (hN : 2 ≤ r.nodeNames.length) (h2 : rc < (r.nodeNames.length : Int)) :
    r.getNBestNodesForKey key rc =
      (List.range (if rc < 1 then 1 else rc.toNat)).map
        (fun j => (bestIdx (r.hasher key) r.nodeHashes + j) % r.nodeNames.length) := by
  unfold getNBestNodesForKey
  have hb1 : ¬r.nodes.length = 1 := by omega
  have hb2 : ¬((r.nodes.length : Int) ≤ rc) := by omega
  rw [if_neg hb1, if_neg hb2]
  cases hh : r.nodeHashes with
  | nil =>
    rw [hh] at hlenH
    simp at hlenH
    omega
  | cons h0 rest =>
    simp only
    rw [hlen]
    have hne : (h0 :: rest : List Nat) ≠ [] := by simp
    have hbound : bestIdx (r.hasher key) (h0 :: rest) < r.nodeNames.length := by
      have := bestIdx_lt (r.hasher key) (h0 :: rest) hne
      rw [hh] at hlenH
      omega
    have hbl : (bestLoop (r.hasher key) rest 1 0 (nodeWeight (r.hasher key) h0)).1 =
        bestIdx (r.hasher key) (h0 :: rest) := rfl
    rw [hbl, wrapLoop_eq_range_map _ _ _ hbound]

/-- `Get` looks up the name at the argmax (any table with at least one node). -/
lemma Get_eq_bestIdx (r : Rendezvous) (key : Bytes)
    (hlen : r.nodes.length = r.nodeNames.length)
    (hlenH : r.nodeHashes.length = r.nodeNames.length)
    (hN : 1 ≤ r.nodeNames.length) :
    r.Get key = r.nodeNames.getD (bestIdx (r.hasher key) r.nodeHashes) [] := by
  unfold Get
  rw [if_neg (by omega : ¬r.nodes.length = 0)]
  by_cases h1 : r.nodes.length = 1
  · unfold getNBestNodesForKey
    rw [if_pos h1]
    cases hh : r.nodeHashes with
    | nil =>
      rw [hh] at hlenH
      simp at hlenH
      omega
    | cons h0 rest =>
      cases rest with
      | nil => simp [bestIdx, bestLoop_nil]
      | cons h1x restx =>
        rw [hh] at hlenH
        simp at hlenH
        omega
  · have hN2 : 2 ≤ r.nodeNames.length := by omega
    have hrc : (1 : Int) < (r.nodeNames.length : Int) := by omega
    rw [getNBest_main r key 1 hlen hlenH hN2 hrc]
    have hne : r.nodeHashes ≠ [] := by
      intro hcon
      rw [hcon] at hlenH
      simp at hlenH
      omega
    have hbound : bestIdx (r.hasher key) r.nodeHashes < r.nodeNames.length := by
      have := bestIdx_lt (r.hasher key) r.nodeHashes hne
      omega
    norm_num
    rw [List.range_succ]
    simp [Nat.mod_eq_of_lt hbound]

/-- A table whose `nodes` map has exactly one entry always answers with its
single name. -/
lemma Get_single (r2 : Rendezvous) (x : Bytes) (hx : r2.nodes.length = 1)
    (hnames : r2.nodeNames = [x]) (key : Bytes) : r2.Get key = x := by
  unfold Get getNBestNodesForKey
  rw [if_neg (by omega : ¬r2.nodes.length = 0), if_pos hx, hnames]
  rfl

end Rendezvous

open Rendezvous

/-- C1: for every well-formed Rendezvous table with at least 2 nodes, every
key, and every replica count `1 ≤ rc < N`, `GetN` returns exactly the names
at indices `(argmax + j) % N` for `0 ≤ j < rc`, where `argmax` is the
lowest index maximising `xorshiftMult64 (hash key XOR nodeHashes[i])`
(the fixed xorshift-multiply mixer), and `Get` returns
`nodeNames[argmax]`. -/
theorem getN_is_argmax_window (r : Rendezvous) (key : Bytes) (rc : Int)
    (hwf : r.WF) (hN : 2 ≤ r.nodeNames.length) (h1 : 1 ≤ rc)
    (h2 : rc < (r.nodeNames.length : Int)) :
    ∃ a, IsBestIdx (r.hasher key) r.nodeHashes a ∧
      r.GetN key rc = (List.range rc.toNat).map
        (fun j => r.nodeNames.getD ((a + j) % r.nodeNames.length) []) ∧
      r.Get key = r.nodeNames.getD a [] := by
  obtain ⟨hlen, hlenH, hnd, hm1, hm2⟩ := hwf
  have hne : r.nodeHashes ≠ [] := by
    intro hcon
    rw [hcon] at hlenH
    simp at hlenH
    omega
  refine ⟨bestIdx (r.hasher key) r.nodeHashes, ?_, ?_,
    Get_eq_bestIdx r key hlen hlenH (by omega)⟩
  · cases hh : r.nodeHashes with
    | nil => exact absurd hh hne
    | cons h0 rest => exact bestIdx_isBest _ h0 rest
  · unfold GetN
    rw [if_neg (by omega : ¬r.nodes.length = 0),
      getNBest_main r key rc hlen hlenH hN h2, if_neg (by omega : ¬rc < 1),
      List.map_map]
    rfl

/-- A concrete table for the rendezvous witnesses: three nodes whose
hashes are 1, 2, 3 under the head-byte hasher. -/
def exTableC1 : Rendezvous :=
  { hasher := fun b => b.headD 0
    nodes := [([1], 0), ([2], 1), ([3], 2)]
    nodeHashes := [1, 2, 3]
    nodeNames := [[1], [2], [3]] }

/-- Witness for C1 at a concrete table, key, and replica count. -/
theorem getN_is_argmax_window_witness :
    exTableC1.WF ∧ 2 ≤ exTableC1.nodeNames.length ∧ (1 : Int) ≤ 2 ∧
      (2 : Int) < (exTableC1.nodeNames.length : Int) ∧
      ∃ a, IsBestIdx (exTableC1.hasher [7]) exTableC1.nodeHashes a ∧
        exTableC1.GetN [7] 2 = (List.range (2 : Int).toNat).map
          (fun j => exTableC1.nodeNames.getD
            ((a + j) % exTableC1.nodeNames.length) []) ∧
        exTableC1.Get [7] = exTableC1.nodeNames.getD a [] :=
  ⟨by decide, by decide, by decide, by decide,
    getN_is_argmax_window exTableC1 [7] 2 (by decide) (by decide) (by decide)
      (by decide)⟩

/-- C5: for every well-formed table with at least one node, every key and
every (possibly nonpositive) replica count, `GetN` returns distinct names,
exactly `min (max rc 1) N` of them; with a single node that node is always
returned, and with `rc ≥ N` all names are returned. -/
theorem getN_cardinality (r : Rendezvous) (key : Bytes) (rc : Int)
    (hwf : r.WF) (hN : 1 ≤ r.nodeNames.length) :
    (r.GetN key rc).Nodup ∧
    (r.GetN key rc).length = min (max rc 1).toNat r.nodeNames.length ∧
    (r.nodeNames.length = 1 → r.GetN key rc = r.nodeNames) ∧
    ((r.nodeNames.length : Int) ≤ rc → r.GetN key rc = r.nodeNames) := by
  obtain ⟨hlen, hlenH, hnd, hm1, hm2⟩ := hwf
  unfold GetN
  rw [if_neg (by omega : ¬r.nodes.length = 0)]
  by_cases h1 : r.nodes.length = 1
  · have hN1 : r.nodeNames.length = 1 := by omega
    unfold getNBestNodesForKey
    rw [if_pos h1]
    have hid : (List.range r.nodeNames.length).map (fun i => r.nodeNames.getD i []) =
        r.nodeNames := map_getD_range r.nodeNames []
    rw [hN1] at hid
    have hsingle : ([0] : List Nat).map (fun idx => r.nodeNames.getD idx []) =
        r.nodeNames := by
      simpa using hid
    refine ⟨?_, ?_, fun _ => hsingle, fun _ => hsingle⟩
    · simp
    · simp only [List.length_map, List.length_cons, List.length_nil]
      omega
  · have hN2 : 2 ≤ r.nodeNames.length := by omega
    by_cases h2 : (r.nodes.length : Int) ≤ rc
    · unfold getNBestNodesForKey
      rw [if_neg h1, if_pos h2, hlen, map_getD_range r.nodeNames []]
      refine ⟨hnd, ?_, fun hcon => absurd hcon (by omega), fun _ => rfl⟩
      rw [hlen] at h2
      omega
    · have hrcN : rc < (r.nodeNames.length : Int) := by omega
      rw [getNBest_main r key rc hlen hlenH hN2 hrcN]
      have hwin : ∀ i ∈ (List.range (if rc < 1 then 1 else rc.toNat)).map
          (fun j => (bestIdx (r.hasher key) r.nodeHashes + j) % r.nodeNames.length),
          i < r.nodeNames.length := by
        intro i hi
        rcases List.mem_map.mp hi with ⟨j, _, rfl⟩
        exact Nat.mod_lt _ (by omega)
      have hbound : bestIdx (r.hasher key) r.nodeHashes < r.nodeNames.length := by
        have hne : r.nodeHashes ≠ [] := by
          intro hcon
          rw [hcon] at hlenH
          simp at hlenH
          omega
        have := bestIdx_lt (r.hasher key) r.nodeHashes hne
        omega
      have hcle : (if rc < 1 then 1 else rc.toNat) ≤ r.nodeNames.length := by
        by_cases hrc : rc < 1 <;> simp [hrc] <;> omega
      refine ⟨?_, ?_, fun hcon => absurd hcon (by omega),
        fun hcon => absurd hcon (by omega)⟩
      · exact map_getD_nodup r.nodeNames _ hnd hwin
          (range_mod_window_nodup r.nodeNames.length _ _ hbound hcle)
      · simp only [List.length_map, List.length_range]
        by_cases hrc : rc < 1 <;> simp [hrc] <;> omega

/-- Witness for C5 at a concrete table, key, and a nonpositive replica
count. -/
theorem getN_cardinality_witness :
    exTableC1.WF ∧ 1 ≤ exTableC1.nodeNames.length ∧
    ((exTableC1.GetN [0] (-3)).Nodup ∧
     (exTableC1.GetN [0] (-3)).length =
       min (max (-3 : Int) 1).toNat exTableC1.nodeNames.length ∧
     (exTableC1.nodeNames.length = 1 → exTableC1.GetN [0] (-3) = exTableC1.nodeNames) ∧
     ((exTableC1.nodeNames.length : Int) ≤ -3 →
       exTableC1.GetN [0] (-3) = exTableC1.nodeNames)) :=
  ⟨by decide, by decide, getN_cardinality exTableC1 [0] (-3) (by decide) (by decide)⟩

/-- C10: for a well-formed table with at least one node, every index
produced by `getNBestNodesForKey` is strictly below the node count, so
`Get` and `GetN` only look up in-range positions and only return current
members of the table. -/
theorem getNBest_indices_in_bounds (r : Rendezvous) (key : Bytes) (rc : Int)
    (hwf : r.WF) (hN : 1 ≤ r.nodeNames.length) :
    (∀ idx ∈ r.getNBestNodesForKey key rc, idx < r.nodeNames.length) ∧
    r.Get key ∈ r.nodeNames ∧
    (∀ nm ∈ r.GetN key rc, nm ∈ r.nodeNames) := by
  obtain ⟨hlen, hlenH, hnd, hm1, hm2⟩ := hwf
  have hne : r.nodeHashes ≠ [] := by
    intro hcon
    rw [hcon] at hlenH
    simp at hlenH
    omega
  have hbound : ∀ rc2 : Int, ∀ idx ∈ r.getNBestNodesForKey key rc2,
      idx < r.nodeNames.length := by
    intro rc2 idx hidx
    by_cases h1 : r.nodes.length = 1
    · unfold getNBestNodesForKey at hidx
      rw [if_pos h1] at hidx
      simp at hidx
      omega
    · by_cases h2 : (r.nodes.length : Int) ≤ rc2
      · unfold getNBestNodesForKey at hidx
        rw [if_neg h1, if_pos h2] at hidx
        rw [List.mem_range] at hidx
        omega
      · have hN2 : 2 ≤ r.nodeNames.length := by omega
        rw [getNBest_main r key rc2 hlen hlenH hN2 (by omega)] at hidx
        rcases List.mem_map.mp hidx with ⟨j, _, rfl⟩
        exact Nat.mod_lt _ (by omega)
  refine ⟨hbound rc, ?_, ?_⟩
  · rw [Get_eq_bestIdx r key hlen hlenH hN]
    refine mem_of_getD r.nodeNames [] _ ?_
    have := bestIdx_lt (r.hasher key) r.nodeHashes hne
    omega
  · intro nm hnm
    unfold GetN at hnm
    rw [if_neg (by omega : ¬r.nodes.length = 0)] at hnm
    rcases List.mem_map.mp hnm with ⟨idx, hidx, rfl⟩
    exact mem_of_getD r.nodeNames [] idx (hbound rc idx hidx)

/-- Witness for C10 at a concrete table, key, and replica count. -/
theorem getNBest_indices_in_bounds_witness :
    exTableC1.WF ∧ 1 ≤ exTableC1.nodeNames.length ∧
    ((∀ idx ∈ exTableC1.getNBestNodesForKey [9] 5, idx < exTableC1.nodeNames.length) ∧
     exTableC1.Get [9] ∈ exTableC1.nodeNames ∧
     (∀ nm ∈ exTableC1.GetN [9] 5, nm ∈ exTableC1.nodeNames)) :=
  ⟨by decide, by decide, getNBest_indices_in_bounds exTableC1 [9] 5 (by decide) (by decide)⟩

/-- C4: adding a fresh name to a well-formed table never reassigns a key
to a pre-existing node: if `Get` changes at all, the new answer is the
freshly added name. -/
theorem add_fresh_no_unnecessary_moves (r : Rendezvous) (nm key : Bytes)
    (hwf : r.WF) (hfresh : nm ∉ r.nodeNames) :
    (r.addNode nm).Get key ≠ r.Get key → (r.addNode nm).Get key = nm := by
  obtain ⟨hlen, hlenH, hnd, hm1, hm2⟩ := hwf
  have hlook : alookup r.nodes nm = none := by
    cases hcase : alookup r.nodes nm with
    | none => rfl
    | some v =>
      exfalso
      have hmem := alookup_mem hcase
      obtain ⟨hv1, hv2⟩ := hm2 _ hmem
      have hv1n : v < r.nodeNames.length := hv1
      have hv2n : r.nodeNames.getD v [] = nm := hv2
      apply hfresh
      rw [← hv2n]
      exact mem_of_getD r.nodeNames [] v hv1n
  have hnodes2 : (r.addNode nm).nodes = r.nodes ++ [(nm, r.nodeNames.length)] := by
    unfold addNode mapInsert
    rw [hlook]
    simp
  have hnames2 : (r.addNode nm).nodeNames = r.nodeNames ++ [nm] := by
    unfold addNode
    rw [hlook]
    simp
  have hhash2 : (r.addNode nm).nodeHashes = r.nodeHashes ++ [r.hasher nm] := by
    unfold addNode
    rw [hlook]
    simp
  have hhasher2 : (r.addNode nm).hasher = r.hasher := by
    unfold addNode
    rw [hlook]
    simp
  by_cases hN0 : r.nodeNames.length = 0
  · intro _
    have hnamesNil : r.nodeNames = [] := List.length_eq_zero.mp hN0
    refine Get_single (r.addNode nm) nm ?_ ?_ key
    · rw [hnodes2]
      simp only [List.length_append, List.length_cons, List.length_nil]
      omega
    · rw [hnames2, hnamesNil]
      rfl
  · have hlen2 : (r.addNode nm).nodes.length = (r.addNode nm).nodeNames.length := by
      rw [hnodes2, hnames2]
      simp only [List.length_append, List.length_cons, List.length_nil]
      omega
    have hlenH2 : (r.addNode nm).nodeHashes.length = (r.addNode nm).nodeNames.length := by
      rw [hhash2, hnames2]
      simp only [List.length_append, List.length_cons, List.length_nil]
      omega
    have hN2 : 1 ≤ (r.addNode nm).nodeNames.length := by
      rw [hnames2]
      simp
    have hget2 := Get_eq_bestIdx (r.addNode nm) key hlen2 hlenH2 hN2
    rw [hhasher2, hhash2, hnames2] at hget2
    have hget1 := Get_eq_bestIdx r key hlen hlenH (by omega)
    cases hh : r.nodeHashes with
    | nil =>
      rw [hh] at hlenH
      simp at hlenH
      omega
    | cons h0 rest =>
      rw [hh] at hget1 hget2
      rw [bestIdx_append (r.hasher key) (r.hasher nm) h0 rest] at hget2
      have hlenhash : (h0 :: rest : List Nat).length = r.nodeNames.length := by
        rw [← hh]
        exact hlenH
      by_cases hc : (bestLoop (r.hasher key) rest 1 0
          (nodeWeight (r.hasher key) h0)).2 < nodeWeight (r.hasher key) (r.hasher nm)
      · rw [if_pos hc, hlenhash, getD_append_length] at hget2
        intro _
        exact hget2
      · rw [if_neg hc] at hget2
        have hblt : bestIdx (r.hasher key) (h0 :: rest) < r.nodeNames.length := by
          have := bestIdx_lt (r.hasher key) (h0 :: rest) (by simp)
          omega
        rw [getD_append_left _ _ _ _ hblt] at hget2
        intro hne
        exact absurd (hget2.trans hget1.symm) hne

/-- A single-node table for the C4 witness. -/
def exTableC4 : Rendezvous :=
  { hasher := fun b => b.headD 0
    nodes := [([1], 0)]
    nodeHashes := [1]
    nodeNames := [[1]] }

/-- Witness for C4: adding the fresh name `[2]` to the single-node table
moves the key `[0]` — and it moves precisely to the new node. -/
theorem add_fresh_no_unnecessary_moves_witness :
    exTableC4.WF ∧ ([2] : Bytes) ∉ exTableC4.nodeNames ∧
    (exTableC4.addNode [2]).Get [0] ≠ exTableC4.Get [0] ∧
    (exTableC4.addNode [2]).Get [0] = [2] :=
  ⟨by decide, by decide, by decide,
    add_fresh_no_unnecessary_moves exTableC4 [2] [0] (by decide) (by decide)
      (by decide)⟩

/-- A two-node table for exercising `Remove` on a missing name. -/
def exTableC3 : Rendezvous :=
  { hasher := fun b => b.headD 0
    nodes := [([0], 0), ([1], 1)]
    nodeHashes := [0, 1]
    nodeNames := [[0], [1]] }

/-- C3 (evaluation of the code at the failing input): removing the absent
name `[2]` from the well-formed two-node table is not a no-op — the Go map
read `r.nodes[node]` yields index 0 for a missing name, so the node `[0]`
is swap-deleted and only `[1]` remains. -/
theorem remove_missing_is_not_noop :
    exTableC3.WF ∧ ([2] : Bytes) ∉ exTableC3.nodeNames ∧
    (exTableC3.Remove [2]).map Rendezvous.nodeNames = some [[1]] ∧
    exTableC3.nodeNames = [[0], [1]] := by decide

/- Part 2 embeds the YAML shard walker from lib/partitioner (shard.go):
   the split-point path classifier `whereAt`, the partition step
   `partitionNode`, the recursive walk `descendRecursively` with its
   `anchors` / `visitedPaths` / item-count state, and the `UnmarshalYAML`
   driver with its split-path-visited check.

   A `yaml.Node` is modelled by its kind, anchor label, interleaved child
   list (key/value pairs for mappings, exactly as in the Go tree), scalar
   value, and — for alias nodes — the referenced label (`node.Value`)
   together with a snapshot of the target node (`node.Alias`).  The
   snapshot is read only for its kind and its pre-walk child count; no
   claim below depends on the in-place pruning Go could share through the
   `Alias` pointer.  `yaml.Marshal` (the canonical child serialization) is
   an abstract function supplied in the configuration, and the walker's
   context-cancellation poll has no pure content. -/

/-- The yaml.Kind values the walker distinguishes. -/
inductive YKind : Type where
  | scalarKind
  | sequenceKind
  | mappingKind
  | aliasKind
deriving DecidableEq

/-- A yaml.Node.  For mappings, `content` is the interleaved
key/value list, exactly as in the Go tree. -/
inductive YNode : Type where
  | scalarNode (anchor value : String) : YNode
  | sequenceNode (anchor : String) (content : List YNode) : YNode
  | mappingNode (anchor : String) (content : List YNode) : YNode
  | aliasNode (value : String) (target : YNode) : YNode

namespace YNode

/-- `node.Kind`. -/
def kind : YNode → YKind
  | .scalarNode .. => .scalarKind
  | .sequenceNode .. => .sequenceKind
  | .mappingNode .. => .mappingKind
  | .aliasNode .. => .aliasKind

/-- `node.Anchor` (alias nodes carry no anchor label). -/
def anchor : YNode → String
  | .scalarNode a _ => a
  | .sequenceNode a _ => a
  | .mappingNode a _ => a
  | .aliasNode _ _ => ""

/-- `node.Value`: the scalar text, or the referenced anchor label of an
alias node. -/
def value : YNode → String
  | .scalarNode _ v => v
  | .aliasNode v _ => v
  | _ => ""

/-- `node.Content`. -/
def content : YNode → List YNode
  | .sequenceNode _ cs => cs
  | .mappingNode _ cs => cs
  | _ => []

end YNode

/-- The shard's `anchors` map: anchor label to its tag (item count when
the split point itself is the anchor; 0 = seen but not assigned to this
shard; the step (1 or 2) = assigned to this shard). -/
abbrev AnchorsMap := List (String × Nat)

/-- The partitioner `Config` fields the walker reads: the rendezvous
table, the parsed split-point path (its `slice`; `String()` is the dotted
join), the replication factor, and the deterministic child serializer
standing for `yaml.Marshal`. -/
structure Config where
  consistentHashing : Rendezvous
  splitPoint : List String
  replicasCount : Int
  marshal : YNode → Bytes

/-- `splitPoint.String()`: the dotted form. -/
def splitPointStr (cfg : Config) : String :=
  String.intercalate "." cfg.splitPoint

/-- `whereAt`: 1 past or mismatched, 0 at the split point, -1 above it. -/
def whereAt (cfg : Config) (path : List String) : Int :=
  if cfg.splitPoint.length < path.length then 1
  else if (List.range path.length).any
      (fun i => decide (path.getD i "" ≠ cfg.splitPoint.getD i "")) then 1
  else if path.length = cfg.splitPoint.length then 0
  else -1

/-- One iteration of the `partitionNode` loop on a (value) child: aliases
keep iff their anchor's tag is positive (never hashed); anchor-bearing
children are pre-marked 0; other children are serialized, hashed, and kept
iff this shard is among the `GetN` replicas, marking a kept anchor with the
step. -/
def partitionItem (cfg : Config) (shName : Bytes) (step : Nat)
    (anchors : AnchorsMap) (item : YNode) : Bool × AnchorsMap :=
  if item.kind = .aliasKind then
    match alookup anchors item.value with
    | some m => (decide (0 < m), anchors)
    | none => (false, anchors)
  else
    let anchors1 := if item.anchor ≠ "" then mapInsert anchors item.anchor 0 else anchors
    let keep := decide (shName ∈
      cfg.consistentHashing.GetN (cfg.marshal item) cfg.replicasCount)
    if keep then
      (true, if item.anchor ≠ "" then mapInsert anchors1 item.anchor step else anchors1)
    else (false, anchors1)

/-- Failures of `partitionNode`: the kind guard, and the
`oldContent[i+1]` read Go would panic on when a mapping has a dangling
key. -/
inductive PartErr : Type where
  | notPartitionable
  | indexOutOfRange
deriving DecidableEq

/-- The `partitionNode` loop over `oldContent`, stepping by one (sequence)
or by a key/value pair (mapping), keeping survivors in input order. -/
def partitionLoop (cfg : Config) (shName : Bytes) (isMapping : Bool) :
    List YNode → AnchorsMap → Except PartErr (List YNode × AnchorsMap)
  | [], anchors => .ok ([], anchors)
  | c :: rest0, anchors =>
    if isMapping then
      match rest0 with
      | [] => .error .indexOutOfRange
      | item :: rest =>
        match partitionItem cfg shName 2 anchors item with
        | (keep, anchors1) =>
          match partitionLoop cfg shName isMapping rest anchors1 with
          | .error e => .error e
          | .ok (out, anchors2) => .ok ((if keep then [c, item] else []) ++ out, anchors2)
    else
      match partitionItem cfg shName 1 anchors c with
      | (keep, anchors1) =>
        match partitionLoop cfg shName isMapping rest0 anchors1 with
        | .error e => .error e
        | .ok (out, anchors2) => .ok ((if keep then [c] else []) ++ out, anchors2)
termination_by structural cs => cs

/-- `partitionNode`: dispatch on the split-point container's kind. -/
def partitionNode (cfg : Config) (shName : Bytes) (nodeKind : YKind)
    (oldContent : List YNode) (anchors : AnchorsMap) :
    Except PartErr (List YNode × AnchorsMap) :=
  match nodeKind with
  | .sequenceKind => partitionLoop cfg shName false oldContent anchors
  | .mappingKind => partitionLoop cfg shName true oldContent anchors
  | _ => .error .notPartitionable

/-- Failures of the recursive walk.  `indexOutOfRange` stands for the
`node.Content[i+1]` read Go would panic on for an odd mapping. -/
inductive WalkErr : Type where
  | notShardable
  | partitionFailed (e : PartErr)
  | splitPathNotFound
  | indexOutOfRange
deriving DecidableEq

/-- The shard state the walk threads: the anchors map, the visited path
set, and the item counters. -/
structure WalkSt where
  anchors : AnchorsMap
  visitedPaths : List String
  itemsCountBefore : Nat
  itemsCountAfter : Nat
deriving DecidableEq

/-- `markVisited`: record the dotted current path (the Go
`defer sh.markVisited(currPath)` fires on every return). -/
def markVisited (path : List String) (st : WalkSt) : WalkSt :=
  { st with visitedPaths := String.intercalate "." path :: st.visitedPaths }

mutual

/-- `descendRecursively`.  Every exit applies `markVisited` to the state,
mirroring the deferred call; errors carry the state alongside (the Go
receiver keeps its fields when an error propagates). -/
def descendRecursively (cfg : Config) (shName : Bytes) (node : YNode)
    (currPath : List String) (st : WalkSt) : Except WalkErr YNode × WalkSt :=
  if whereAt cfg currPath = 1 then (.ok node, markVisited currPath st)
  else
    let atSplitPoint := whereAt cfg currPath = 0
    match node with
    | .scalarNode a v =>
      if atSplitPoint then (.error .notShardable, markVisited currPath st)
      else (.ok (.scalarNode a v), markVisited currPath st)
    | .sequenceNode a cs =>
      if atSplitPoint then
        let icb := cs.length / 1
        let st1 := if a ≠ "" then { st with anchors := mapInsert st.anchors a icb } else st
        let st2 := { st1 with itemsCountBefore := st1.itemsCountBefore + icb }
        match partitionNode cfg shName .sequenceKind cs st2.anchors with
        | .error e => (.error (.partitionFailed e), markVisited currPath st2)
        | .ok (newContent, anchors2) =>
          (.ok (.sequenceNode a newContent), markVisited currPath
            { st2 with
              anchors := anchors2
              itemsCountAfter := st2.itemsCountAfter + newContent.length / 1 })
      else
        match descendSeqChildren cfg shName cs currPath st with
        | (.error e, st1) => (.error e, markVisited currPath st1)
        | (.ok newCs, st1) => (.ok (.sequenceNode a newCs), markVisited currPath st1)
    | .mappingNode a cs =>
      if atSplitPoint then
        let icb := cs.length / 2
        let st1 := if a ≠ "" then { st with anchors := mapInsert st.anchors a icb } else st
        let st2 := { st1 with itemsCountBefore := st1.itemsCountBefore + icb }
        match partitionNode cfg shName .mappingKind cs st2.anchors with
        | .error e => (.error (.partitionFailed e), markVisited currPath st2)
        | .ok (newContent, anchors2) =>
          (.ok (.mappingNode a newContent), markVisited currPath
            { st2 with
              anchors := anchors2
              itemsCountAfter := st2.itemsCountAfter + newContent.length / 2 })
      else
        match descendMapChildren cfg shName cs currPath st with
        | (.error e, st1) => (.error e, markVisited currPath st1)
        | (.ok newCs, st1) => (.ok (.mappingNode a newCs), markVisited currPath st1)
    | .aliasNode label target =>
      if atSplitPoint then
        let st1 := { st with itemsCountBefore :=
          st.itemsCountBefore + (alookup st.anchors label).getD 0 }
        match target.kind with
        | .sequenceKind =>
          (.ok (.aliasNode label target), markVisited currPath
            { st1 with itemsCountAfter := st1.itemsCountAfter + target.content.length / 1 })
        | .mappingKind =>
          (.ok (.aliasNode label target), markVisited currPath
            { st1 with itemsCountAfter := st1.itemsCountAfter + target.content.length / 2 })
        | _ => (.error .notShardable, markVisited currPath st1)
      else (.ok (.aliasNode label target), markVisited currPath st)

/-- The child loop of `descendRecursively` for sequences: each element is
descended at path element `"*"`, in order, threading the state. -/
def descendSeqChildren (cfg : Config) (shName : Bytes) (cs : List YNode)
    (currPath : List String) (st : WalkSt) : Except WalkErr (List YNode) × WalkSt :=
  match cs with
  | [] => (.ok [], st)
  | c :: rest =>
    match descendRecursively cfg shName c (currPath ++ ["*"]) st with
    | (.error e, st1) => (.error e, st1)
    | (.ok c2, st1) =>
      match descendSeqChildren cfg shName rest currPath st1 with
      | (.error e, st2) => (.error e, st2)
      | (.ok rest2, st2) => (.ok (c2 :: rest2), st2)

/-- The child loop of `descendRecursively` for mappings: only the value of
each pair is descended, at the key's scalar value; a dangling key is the
`Content[i+1]` read Go would panic on. -/
def descendMapChildren (cfg : Config) (shName : Bytes) (cs : List YNode)
    (currPath : List String) (st : WalkSt) : Except WalkErr (List YNode) × WalkSt :=
  match cs with
  | [] => (.ok [], st)
  | [_] => (.error .indexOutOfRange, st)
  | k :: v :: rest =>
    match descendRecursively cfg shName v (currPath ++ [k.value]) st with
    | (.error e, st1) => (.error e, st1)
    | (.ok v2, st1) =>
      match descendMapChildren cfg shName rest currPath st1 with
      | (.error e, st2) => (.error e, st2)
      | (.ok rest2, st2) => (.ok (k :: v2 :: rest2), st2)

end

/-- The state `Reset` leaves behind before a run. -/
def initialWalkSt : WalkSt :=
  { anchors := [], visitedPaths := [], itemsCountBefore := 0, itemsCountAfter := 0 }

/-- `UnmarshalYAML`: walk from the root at the empty path, then fail with
the split-path-not-found error unless the dotted split path was visited;
on success the walked root is retained (`sh.headNode = value`). -/
def unmarshalShard (cfg : Config) (shName : Bytes) (value : YNode) :
    Except WalkErr (YNode × WalkSt) :=
  match descendRecursively cfg shName value [] initialWalkSt with
  | (.error e, _) => .error e
  | (.ok root, st) =>
    if splitPointStr cfg ∈ st.visitedPaths then .ok (root, st)
    else .error .splitPathNotFound

lemma alookup_append {α β : Type} [DecidableEq α] (m m2 : List (α × β)) (x : α) :
    alookup (m ++ m2) x =
      match alookup m x with
      | some v => some v
      | none => alookup m2 x := by
  induction m with
  | nil => simp [alookup]
  | cons p rest ih =>
    rcases p with ⟨a, b⟩
    by_cases hax : a = x
    · simp [alookup, hax]
    · simp [alookup, hax, ih]

lemma alookup_map_replace {α β : Type} [DecidableEq α] (m : List (α × β)) (k x : α) (v : β) :
    alookup (m.map (fun p => if p.1 = k then (k, v) else p)) x =
      if x = k then (if (alookup m k).isSome then some v else none)
      else alookup m x := by
  induction m with
  | nil => simp [alookup]
  | cons p rest ih =>
    rcases p with ⟨a, b⟩
    simp only [List.map_cons]
    by_cases hak : a = k
    · by_cases hxk : x = k
      · subst hxk
        simp [alookup, hak]
      · have hkx : ¬k = x := fun hcon => hxk hcon.symm
        have hax : ¬a = x := by rw [hak]; exact hkx
        simp [alookup, hak, hxk, hkx, hax, ih]
    · by_cases hxk : x = k
      · subst hxk
        have hax : ¬a = x := hak
        simp [alookup, hak, hax, ih]
      · by_cases hax : a = x
        · subst hax
          simp [alookup, hak, hxk]
        · simp [alookup, hak, hxk, hax, ih]

/-- Map semantics of `mapInsert`: the inserted key reads back the new
value, all other keys are untouched. -/
lemma alookup_mapInsert {α β : Type} [DecidableEq α] (m : List (α × β)) (k : α) (v : β)
    (x : α) :
    alookup (mapInsert m k v) x = if x = k then some v else alookup m x := by
  unfold mapInsert
  by_cases hk : (alookup m k).isSome
  · rw [if_pos hk, alookup_map_replace, if_pos hk]
  · rw [if_neg hk, alookup_append]
    by_cases hxk : x = k
    · rw [hxk]
      cases hcase : alookup m k with
      | some v2 => rw [hcase] at hk; simp at hk
      | none => simp [alookup]
    · rw [if_neg hxk]
      have hkx : ¬k = x := fun hcon => hxk hcon.symm
      cases hcase : alookup m x with
      | some v2 => simp
      | none => simp [alookup, hkx]

/-- This shard is among the replicas `GetN` selects for the serialized
child. -/
def Assigned (cfg : Config) (shName : Bytes) (item : YNode) : Prop :=
  shName ∈ cfg.consistentHashing.GetN (cfg.marshal item) cfg.replicasCount

instance (cfg : Config) (shName : Bytes) (item : YNode) :
    Decidable (Assigned cfg shName item) := by
  unfold Assigned; infer_instance

/-- An alias child is decided purely by its anchor's tag: kept iff the tag
is positive, with the anchors map unchanged — no serialization or hashing
is involved. -/
lemma partitionItem_alias (cfg : Config) (shName : Bytes) (step : Nat)
    (A : AnchorsMap) (item : YNode) (h : item.kind = .aliasKind) :
    partitionItem cfg shName step A item =
      (decide (0 < (alookup A item.value).getD 0), A) := by
  unfold partitionItem
  rw [if_pos h]
  cases hcase : alookup A item.value with
  | some m => simp [hcase]
  | none => simp [hcase]

/-- A non-alias child is kept iff this shard is among the `GetN` replicas
of its serialized form. -/
lemma partitionItem_nonalias_keep (cfg : Config) (shName : Bytes) (step : Nat)
    (A : AnchorsMap) (item : YNode) (h : ¬item.kind = .aliasKind) :
    (partitionItem cfg shName step A item).1 =
      decide (Assigned cfg shName item) := by
  by_cases hkeep : shName ∈ cfg.consistentHashing.GetN (cfg.marshal item) cfg.replicasCount
  · simp [partitionItem, Assigned, h, hkeep]
  · simp [partitionItem, Assigned, h, hkeep]

/-- A positive tag after one partition-loop iteration was either already
positive or was just written for a kept anchor-bearing child. -/
lemma partitionItem_snd_lookup (cfg : Config) (shName : Bytes) (step : Nat)
    (A : AnchorsMap) (item : YNode) (label : String) :
    0 < (alookup (partitionItem cfg shName step A item).2 label).getD 0 →
    0 < (alookup A label).getD 0 ∨
    ((partitionItem cfg shName step A item).1 = true ∧ item.anchor = label ∧
      Assigned cfg shName item) := by
  intro hpos
  by_cases halias : item.kind = .aliasKind
  · rw [partitionItem_alias cfg shName step A item halias] at hpos
    exact Or.inl hpos
  · by_cases hkeep : shName ∈ cfg.consistentHashing.GetN (cfg.marshal item) cfg.replicasCount
    · by_cases hanch : item.anchor = ""
      · simp [partitionItem, halias, hkeep, hanch] at hpos
        exact Or.inl hpos
      · simp [partitionItem, halias, hkeep, hanch] at hpos
        rw [alookup_mapInsert] at hpos
        by_cases hlab : label = item.anchor
        · refine Or.inr ⟨?_, hlab.symm, hkeep⟩
          simp [partitionItem, halias, hkeep]
        · rw [if_neg hlab, alookup_mapInsert, if_neg hlab] at hpos
          exact Or.inl hpos
    · by_cases hanch : item.anchor = ""
      · simp [partitionItem, halias, hkeep, hanch] at hpos
        exact Or.inl hpos
      · simp [partitionItem, halias, hkeep, hanch] at hpos
        rw [alookup_mapInsert] at hpos
        by_cases hlab : label = item.anchor
        · rw [if_pos hlab] at hpos
          simp at hpos
        · rw [if_neg hlab] at hpos
          exact Or.inl hpos

/-- A node that must make the walk fail when reached at the split point:
neither a sequence nor a mapping, including an alias whose target is
neither. -/
def badSplitNode (n : YNode) : Bool :=
  match n with
  | .scalarNode _ _ => true
  | .sequenceNode _ _ => false
  | .mappingNode _ _ => false
  | .aliasNode _ target =>
    decide (target.kind ≠ .sequenceKind) && decide (target.kind ≠ .mappingKind)

/-- C9: if the walk reaches the split point (`whereAt == 0`) at a node
that is neither a sequence nor a mapping — including an alias whose target
is neither — `descendRecursively` fails with the not-shardable error, and
such a failure of the walk makes the whole run (`UnmarshalYAML`) fail with
the same error. -/
theorem descend_notShardable_at_split (cfg : Config) (shName : Bytes) (node : YNode)
    (currPath : List String) (st : WalkSt)
    (h0 : whereAt cfg currPath = 0) (hbad : badSplitNode node = true) :
    (descendRecursively cfg shName node currPath st).1 = .error .notShardable ∧
    ∀ (doc : YNode) (st2 : WalkSt),
      descendRecursively cfg shName doc [] initialWalkSt = (.error .notShardable, st2) →
      unmarshalShard cfg shName doc = .error .notShardable := by
  constructor
  · cases node with
    | scalarNode a v =>
      rw [descendRecursively, h0]
      norm_num
    | sequenceNode a cs => simp [badSplitNode] at hbad
    | mappingNode a cs => simp [badSplitNode] at hbad
    | aliasNode label target =>
      simp only [badSplitNode, Bool.and_eq_true, decide_eq_true_eq] at hbad
      rw [descendRecursively, h0]
      norm_num
      cases hk : target.kind with
      | scalarKind => simp
      | sequenceKind => exact absurd hk hbad.1
      | mappingKind => exact absurd hk hbad.2
      | aliasKind => simp
  · intro doc st2 h
    rw [unmarshalShard, h]

/-- A concrete configuration for the C9 witness: split path `a`, two
shards. -/
def exCfgC9 : Config :=
  { consistentHashing := exTableC3
    splitPoint := ["a"]
    replicasCount := 1
    marshal := fun _ => [] }

/-- A document whose split-point node (`a`) is a scalar. -/
def exDocC9 : YNode := .mappingNode "" [.scalarNode "" "a", .scalarNode "" "x"]

/-- The error a run reports, if any. -/
def runError (cfg : Config) (shName : Bytes) (doc : YNode) : Option WalkErr :=
  match unmarshalShard cfg shName doc with
  | .error e => some e
  | .ok _ => none

/-- Witness for C9: the scalar at path `a` makes the walk and the whole
run fail with the not-shardable error. -/
theorem descend_notShardable_at_split_witness :
    whereAt exCfgC9 ["a"] = 0 ∧
    badSplitNode (YNode.scalarNode "" "x") = true ∧
    ((descendRecursively exCfgC9 [0] (.scalarNode "" "x") ["a"] initialWalkSt).1 =
        .error .notShardable ∧
      ∀ (doc : YNode) (st2 : WalkSt),
        descendRecursively exCfgC9 [0] doc [] initialWalkSt =
            (.error .notShardable, st2) →
          unmarshalShard exCfgC9 [0] doc = .error .notShardable) ∧
    runError exCfgC9 [0] exDocC9 = some .notShardable :=
  ⟨by decide, by decide,
    descend_notShardable_at_split exCfgC9 [0] (.scalarNode "" "x") ["a"]
      initialWalkSt (by decide) (by decide),
    by decide⟩

/-- The error type of `setItemsBefore` in the `FilePartitioner`. -/
inductive ItemsErr : Type where
  | itemsConsistency
deriving DecidableEq

/-- `Partitioner.setItemsBefore`: record the first shard's count, then
insist every later shard reports the same count. -/
def setItemsBefore (totalItemsBefore n : Nat) : Except ItemsErr Nat :=
  if totalItemsBefore = 0 then .ok n
  else if totalItemsBefore ≠ n then .error .itemsConsistency
  else .ok totalItemsBefore

/-- The C7 counterexample configuration: two shards under a constant
hasher (all weights tie, so the shard at index 0 wins every key),
replication factor 1, split path `g.*`. -/
def exCfgC7 : Config :=
  { consistentHashing :=
      { hasher := fun _ => 0
        nodes := [([0], 0), ([1], 1)]
        nodeHashes := [0, 0]
        nodeNames := [[0], [1]] }
    splitPoint := ["g", "*"]
    replicasCount := 1
    marshal := fun _ => [] }

/-- The C7 counterexample document: the first split-point container holds
an anchored child `&L` (itself a sequence, so the later alias is
shardable), and the second split-point node is the alias `*L`. -/
def exDocC7 : YNode :=
  .mappingNode "" [.scalarNode "" "g",
    .sequenceNode "" [
      .sequenceNode "" [.sequenceNode "L" [.scalarNode "" "x"], .scalarNode "" "y"],
      .aliasNode "L" (.sequenceNode "L" [.scalarNode "" "x"])]]

/-- The `itemsCountBefore` a successful run reports. -/
def runItemsBefore (cfg : Config) (shName : Bytes) (doc : YNode) : Option Nat :=
  match unmarshalShard cfg shName doc with
  | .ok (_, st) => some st.itemsCountBefore
  | .error _ => none

/-- C7 (evaluation of the code at the failing input): both shards process
the same document successfully, yet the shard that keeps the anchored
child charges the alias at the split point with the anchor's tag (1)
while the other shard charges 0, so `itemsCountBefore` is 3 on one shard
and 2 on the other, and the `FilePartitioner` consistency check fails. -/
theorem itemsBefore_is_shard_dependent :
    runItemsBefore exCfgC7 [0] exDocC7 = some 3 ∧
    runItemsBefore exCfgC7 [1] exDocC7 = some 2 ∧
    setItemsBefore 0 3 = .ok 3 ∧
    setItemsBefore 3 2 = .error .itemsConsistency :=
  ⟨by decide, by decide, rfl, rfl⟩

/-- Every return path of `descendRecursively` runs the deferred
`markVisited currPath`, so the dotted current path of every processed node
is recorded. -/
lemma descend_marks (cfg : Config) (shName : Bytes) (node : YNode)
    (p : List String) (st0 : WalkSt) :
    String.intercalate "." p ∈
      (descendRecursively cfg shName node p st0).2.visitedPaths := by
  suffices h : ∃ stx, (descendRecursively cfg shName node p st0).2 = markVisited p stx by
    rcases h with ⟨stx, hx⟩
    rw [hx, markVisited]
    exact List.mem_cons_self _ _
  cases node <;> rw [descendRecursively] <;> dsimp only <;>
    (repeat' (first | exact ⟨_, rfl⟩ | split))

/-- C8: the walk records the dotted current path of every node it
processes; after a successful walk, the run (`UnmarshalYAML`) fails with
the split-path-not-found error exactly when the dotted split-point path is
not among the recorded visited paths, and when it is, the walked root is
retained as the result. -/
theorem unmarshal_splitPath_check (cfg : Config) (shName : Bytes)
    (doc root : YNode) (st : WalkSt)
    (hrun : descendRecursively cfg shName doc [] initialWalkSt = (.ok root, st)) :
    (unmarshalShard cfg shName doc = .error .splitPathNotFound ↔
      splitPointStr cfg ∉ st.visitedPaths) ∧
    (splitPointStr cfg ∈ st.visitedPaths →
      unmarshalShard cfg shName doc = .ok (root, st)) ∧
    ∀ (node : YNode) (p : List String) (st0 : WalkSt),
      String.intercalate "." p ∈
        (descendRecursively cfg shName node p st0).2.visitedPaths := by
  have hU : unmarshalShard cfg shName doc =
      if splitPointStr cfg ∈ st.visitedPaths then .ok (root, st)
      else .error .splitPathNotFound := by
    unfold unmarshalShard
    rw [hrun]
  refine ⟨?_, ?_, fun node p st0 => descend_marks cfg shName node p st0⟩
  · rw [hU]
    by_cases hmem : splitPointStr cfg ∈ st.visitedPaths
    · rw [if_pos hmem]
      constructor
      · intro hcon
        exact absurd hcon (by simp)
      · intro hcon
        exact absurd hmem hcon
    · rw [if_neg hmem]
      exact ⟨fun _ => hmem, fun _ => rfl⟩
  · intro hmem
    rw [hU, if_pos hmem]

/-- The document for the C8 witness: the split path `a` names a sequence
of two scalars. -/
def exDocC8 : YNode :=
  .mappingNode "" [.scalarNode "" "a",
    .sequenceNode "" [.scalarNode "" "x", .scalarNode "" "y"]]

/-- The state the C8 witness walk ends in. -/
def exStC8 : WalkSt :=
  { anchors := [], visitedPaths := ["", "a"], itemsCountBefore := 2, itemsCountAfter := 2 }

/-- Witness for C8 at a concrete configuration and document (shard `[1]`
keeps both items; the walk visits the paths `a` and the root). -/
theorem unmarshal_splitPath_check_witness :
    descendRecursively exCfgC9 [1] exDocC8 [] initialWalkSt = (.ok exDocC8, exStC8) ∧
    ((unmarshalShard exCfgC9 [1] exDocC8 = .error .splitPathNotFound ↔
        splitPointStr exCfgC9 ∉ exStC8.visitedPaths) ∧
      (splitPointStr exCfgC9 ∈ exStC8.visitedPaths →
        unmarshalShard exCfgC9 [1] exDocC8 = .ok (exDocC8, exStC8)) ∧
      ∀ (node : YNode) (p : List String) (st0 : WalkSt),
        String.intercalate "." p ∈
          (descendRecursively exCfgC9 [1] node p st0).2.visitedPaths) :=
  ⟨rfl, unmarshal_splitPath_check exCfgC9 [1] exDocC8 exDocC8 exStC8 rfl⟩

/-- One mapping iteration of the partition loop, with the pair's decision
factored out: the output prepends `[key, value]` when the value is kept
and the rest of the loop is unchanged. -/
lemma partitionLoop_map_cons (cfg : Config) (shName : Bytes)
    (k item : YNode) (rest : List YNode) (A : AnchorsMap) :
    partitionLoop cfg shName true (k :: item :: rest) A =
      (partitionLoop cfg shName true rest (partitionItem cfg shName 2 A item).2).map
        (fun r => ((if (partitionItem cfg shName 2 A item).1 then [k, item] else []) ++ r.1,
          r.2)) := by
  rw [partitionLoop]
  dsimp only
  rcases hpart : partitionItem cfg shName 2 A item with ⟨keep, A1⟩
  cases hrec : partitionLoop cfg shName true rest A1 with
  | error e => simp [Except.map, hrec]
  | ok pr =>
    rcases pr with ⟨out, A2⟩
    simp [Except.map, hrec]

/-- C6: at a mapping split point, a non-alias child's shard decision hashes
the YAML serialization of the child's value node alone — the mapping key
node is not part of the hash input and has no effect on the rest of the
loop — so the decision is a function of the serialized value bytes (and the
shard table and replica count) only. -/
theorem partition_map_hashes_value_only (cfg : Config) (shName : Bytes)
    (item : YNode) (rest : List YNode) (A : AnchorsMap)
    (hitem : ¬item.kind = .aliasKind) :
    (partitionItem cfg shName 2 A item).1 =
      decide (shName ∈ cfg.consistentHashing.GetN (cfg.marshal item) cfg.replicasCount) ∧
    (∀ k2 : YNode, partitionLoop cfg shName true (k2 :: item :: rest) A =
      (partitionLoop cfg shName true rest (partitionItem cfg shName 2 A item).2).map
        (fun r => ((if (partitionItem cfg shName 2 A item).1 then [k2, item] else []) ++ r.1,
          r.2))) ∧
    (∀ item2 : YNode, ¬item2.kind = .aliasKind → cfg.marshal item2 = cfg.marshal item →
      (partitionItem cfg shName 2 A item2).1 = (partitionItem cfg shName 2 A item).1) := by
  refine ⟨partitionItem_nonalias_keep cfg shName 2 A item hitem, ?_, ?_⟩
  · intro k2
    exact partitionLoop_map_cons cfg shName k2 item rest A
  · intro item2 h2 hmar
    rw [partitionItem_nonalias_keep cfg shName 2 A item2 h2,
      partitionItem_nonalias_keep cfg shName 2 A item hitem]
    simp only [Assigned, hmar]

/-- Witness for C6 at a concrete configuration, key/value pair, and tail. -/
theorem partition_map_hashes_value_only_witness :
    ¬(YNode.scalarNode "" "v").kind = .aliasKind ∧
    ((partitionItem exCfgC9 [1] 2 [] (.scalarNode "" "v")).1 =
      decide (([1] : Bytes) ∈ exCfgC9.consistentHashing.GetN
        (exCfgC9.marshal (.scalarNode "" "v")) exCfgC9.replicasCount) ∧
    (∀ k2 : YNode, partitionLoop exCfgC9 [1] true (k2 :: .scalarNode "" "v" :: []) [] =
      (partitionLoop exCfgC9 [1] true []
          (partitionItem exCfgC9 [1] 2 [] (.scalarNode "" "v")).2).map
        (fun r => ((if (partitionItem exCfgC9 [1] 2 [] (.scalarNode "" "v")).1
          then [k2, .scalarNode "" "v"] else []) ++ r.1, r.2))) ∧
    (∀ item2 : YNode, ¬item2.kind = .aliasKind →
      exCfgC9.marshal item2 = exCfgC9.marshal (.scalarNode "" "v") →
      (partitionItem exCfgC9 [1] 2 [] item2).1 =
        (partitionItem exCfgC9 [1] 2 [] (.scalarNode "" "v")).1)) :=
  ⟨by decide,
    partition_map_hashes_value_only exCfgC9 [1] (.scalarNode "" "v")
      [] [] (by decide)⟩

/-- The value children of a split-point container's content: every element
for a sequence, the even-position values for a mapping. -/
def valueItems (isMapping : Bool) : List YNode → List YNode
  | [] => []
  | c :: rest0 =>
    if isMapping then
      match rest0 with
      | [] => []
      | v :: rest => v :: valueItems isMapping rest
    else c :: valueItems isMapping rest0
termination_by structural cs => cs

/-- The key children of a mapping's content (none for a sequence). -/
def keyItems (isMapping : Bool) : List YNode → List YNode
  | [] => []
  | c :: rest0 =>
    if isMapping then
      match rest0 with
      | [] => [c]
      | _ :: rest => c :: keyItems isMapping rest
    else keyItems isMapping rest0
termination_by structural cs => cs

/-- An alias node carries no anchor label. -/
lemma anchor_empty_of_aliasKind (n : YNode) (h : n.kind = .aliasKind) :
    n.anchor = "" := by
  cases n <;> first | rfl | simp [YNode.kind] at h

/-- Composing the anchors/survivor invariant across one loop iteration:
`item` is the value child just processed (with optional key `key?`), and
the four `H` hypotheses are the invariant for the remaining loop run. -/
lemma partition_inv_compose (cfg : Config) (shName : Bytes) (step : Nat)
    (key? : Option YNode) (item : YNode) (A : AnchorsMap)
    (KR VR outR : List YNode) (A2 : AnchorsMap)
    (hkey : ∀ kx ∈ key?.toList, kx.anchor = "" ∧ ¬kx.kind = .aliasKind)
    (H1 : ∀ a ∈ outR, a ∈ KR ∨ a ∈ VR)
    (H2 : ∀ a ∈ outR, ¬a.anchor = "" → Assigned cfg shName a)
    (H3 : ∀ label target, YNode.aliasNode label target ∈ outR →
      0 < (alookup (partitionItem cfg shName step A item).2 label).getD 0 ∨
      ∃ a, a ∈ outR ∧ a.anchor = label ∧ Assigned cfg shName a)
    (H4 : ∀ label, 0 < (alookup A2 label).getD 0 →
      0 < (alookup (partitionItem cfg shName step A item).2 label).getD 0 ∨
      ∃ a, a ∈ outR ∧ a.anchor = label ∧ Assigned cfg shName a) :
    (∀ a ∈ (if (partitionItem cfg shName step A item).1 then
        key?.toList ++ [item] else []) ++ outR,
      a ∈ key?.toList ++ KR ∨ a ∈ item :: VR) ∧
    (∀ a ∈ (if (partitionItem cfg shName step A item).1 then
        key?.toList ++ [item] else []) ++ outR,
      ¬a.anchor = "" → Assigned cfg shName a) ∧
    (∀ label target, YNode.aliasNode label target ∈
        (if (partitionItem cfg shName step A item).1 then
          key?.toList ++ [item] else []) ++ outR →
      0 < (alookup A label).getD 0 ∨
      ∃ a, a ∈ (if (partitionItem cfg shName step A item).1 then
          key?.toList ++ [item] else []) ++ outR ∧
        a.anchor = label ∧ Assigned cfg shName a) ∧
    (∀ label, 0 < (alookup A2 label).getD 0 →
      0 < (alookup A label).getD 0 ∨
      ∃ a, a ∈ (if (partitionItem cfg shName step A item).1 then
          key?.toList ++ [item] else []) ++ outR ∧
        a.anchor = label ∧ Assigned cfg shName a) := by
  have hpre : ∀ a, a ∈ (if (partitionItem cfg shName step A item).1 then
      key?.toList ++ [item] else []) → (partitionItem cfg shName step A item).1 = true ∧
      (a ∈ key?.toList ∨ a = item) := by
    intro a ha
    by_cases hk : (partitionItem cfg shName step A item).1 = true
    · rw [if_pos hk] at ha
      rcases List.mem_append.mp ha with h | h
      · exact ⟨hk, Or.inl h⟩
      · exact ⟨hk, Or.inr (by simpa using h)⟩
    · rw [if_neg hk] at ha
      simp at ha
  have hitem_mem : (partitionItem cfg shName step A item).1 = true →
      item ∈ (if (partitionItem cfg shName step A item).1 then
        key?.toList ++ [item] else []) ++ outR := by
    intro hk
    rw [if_pos hk]
    refine List.mem_append_left _ (List.mem_append_right _ ?_)
    simp
  -- a positive tag after processing `item` either was positive before or
  -- certifies that `item` is a kept, assigned anchor child
  have hfromA1 : ∀ label, 0 < (alookup (partitionItem cfg shName step A item).2 label).getD 0 →
      0 < (alookup A label).getD 0 ∨
      ∃ a, a ∈ (if (partitionItem cfg shName step A item).1 then
          key?.toList ++ [item] else []) ++ outR ∧
        a.anchor = label ∧ Assigned cfg shName a := by
    intro label hpos
    rcases partitionItem_snd_lookup cfg shName step A item label hpos with h | ⟨hk, hanc, hass⟩
    · exact Or.inl h
    · exact Or.inr ⟨item, hitem_mem hk, hanc, hass⟩
  refine ⟨?_, ?_, ?_, ?_⟩
  · intro a ha
    rcases List.mem_append.mp ha with h | h
    · rcases (hpre a h).2 with h2 | h2
      · exact Or.inl (List.mem_append_left _ h2)
      · exact Or.inr (by rw [h2]; simp)
    · rcases H1 a h with h2 | h2
      · exact Or.inl (List.mem_append_right _ h2)
      · exact Or.inr (List.mem_cons_of_mem _ h2)
  · intro a ha hanc
    rcases List.mem_append.mp ha with h | h
    · obtain ⟨hk, h2⟩ := hpre a h
      rcases h2 with h2 | h2
      · exact absurd (hkey a h2).1 hanc
      · subst h2
        by_cases hal : a.kind = .aliasKind
        · exact absurd (anchor_empty_of_aliasKind a hal) hanc
        · rw [partitionItem_nonalias_keep cfg shName step A a hal] at hk
          exact of_decide_eq_true hk
    · exact H2 a h hanc
  · intro label target hmem
    rcases List.mem_append.mp hmem with h | h
    · obtain ⟨hk, h2⟩ := hpre _ h
      rcases h2 with h2 | h2
      · have := (hkey _ h2).2
        simp [YNode.kind] at this
      · rw [partitionItem_alias cfg shName step A item (by rw [← h2]; rfl)] at hk
        simp only [decide_eq_true_eq] at hk
        rw [← h2] at hk
        exact Or.inl hk
    · rcases H3 label target h with h2 | ⟨a, haR, hanc, hass⟩
      · exact hfromA1 label h2
      · exact Or.inr ⟨a, List.mem_append_right _ haR, hanc, hass⟩
  · intro label hpos
    rcases H4 label hpos with h2 | ⟨a, haR, hanc, hass⟩
    · exact hfromA1 label h2
    · exact Or.inr ⟨a, List.mem_append_right _ haR, hanc, hass⟩

lemma keyItems_false (cs : List YNode) : keyItems false cs = [] := by
  induction cs with
  | nil => rfl
  | cons c rest ih =>
    rw [keyItems.eq_def]
    simpa using ih

lemma valueItems_false_cons (c : YNode) (rest0 : List YNode) :
    valueItems false (c :: rest0) = c :: valueItems false rest0 := by
  rw [valueItems.eq_def]
  rfl

lemma keyItems_true_cons (k v : YNode) (rest : List YNode) :
    keyItems true (k :: v :: rest) = k :: keyItems true rest := by
  rw [keyItems.eq_def]
  rfl

lemma valueItems_true_cons (k v : YNode) (rest : List YNode) :
    valueItems true (k :: v :: rest) = v :: valueItems true rest := by
  rw [valueItems.eq_def]
  rfl

lemma partitionLoop_inv_nil (cfg : Config) (shName : Bytes) (isMapping : Bool)
    (A : AnchorsMap) (out : List YNode) (A2 : AnchorsMap)
    (hrun : partitionLoop cfg shName isMapping [] A = .ok (out, A2)) :
    out = [] ∧ A2 = A := by
  rw [partitionLoop] at hrun
  injection hrun with hpair
  injection hpair with h1 h2
  exact ⟨h1.symm, h2.symm⟩

/-- The partition-loop invariant: survivors come from the input's keys and
values; surviving anchor-bearing nodes are hash-assigned to this shard;
surviving aliases point at labels whose tag was positive on entry or whose
anchor child survived assigned; and the final anchors map only holds
positive tags for such labels. -/
lemma partitionLoop_inv (cfg : Config) (shName : Bytes) (isMapping : Bool) :
    ∀ (n : Nat) (cs : List YNode), cs.length ≤ n →
    ∀ (A : AnchorsMap) (out : List YNode) (A2 : AnchorsMap),
    partitionLoop cfg shName isMapping cs A = .ok (out, A2) →
    (∀ kx ∈ keyItems isMapping cs, kx.anchor = "" ∧ ¬kx.kind = .aliasKind) →
    (∀ a ∈ out, a ∈ keyItems isMapping cs ∨ a ∈ valueItems isMapping cs) ∧
    (∀ a ∈ out, ¬a.anchor = "" → Assigned cfg shName a) ∧
    (∀ label target, YNode.aliasNode label target ∈ out →
      0 < (alookup A label).getD 0 ∨
      ∃ a, a ∈ out ∧ a.anchor = label ∧ Assigned cfg shName a) ∧
    (∀ label, 0 < (alookup A2 label).getD 0 →
      0 < (alookup A label).getD 0 ∨
      ∃ a, a ∈ out ∧ a.anchor = label ∧ Assigned cfg shName a) := by
  intro n
  induction n with
  | zero =>
    intro cs hlen A out A2 hrun hkeys
    have hcs : cs = [] := List.length_eq_zero.mp (Nat.le_zero.mp hlen)
    subst hcs
    obtain ⟨ho, hA⟩ := partitionLoop_inv_nil cfg shName isMapping A out A2 hrun
    subst ho
    subst hA
    exact ⟨by simp, by simp, by simp, fun label hpos => Or.inl hpos⟩
  | succ n IH =>
    intro cs hlen A out A2 hrun hkeys
    cases cs with
    | nil =>
      obtain ⟨ho, hA⟩ := partitionLoop_inv_nil cfg shName isMapping A out A2 hrun
      subst ho
      subst hA
      exact ⟨by simp, by simp, by simp, fun label hpos => Or.inl hpos⟩
    | cons c rest0 =>
      cases isMapping with
      | false =>
        rw [partitionLoop.eq_def] at hrun
        dsimp only at hrun
        rcases hpi : partitionItem cfg shName 1 A c with ⟨keep, A1⟩
        rw [hpi] at hrun
        dsimp only at hrun
        cases hrec : partitionLoop cfg shName false rest0 A1 with
        | error e =>
          rw [hrec] at hrun
          exact absurd hrun (by simp)
        | ok pr =>
          rcases pr with ⟨outR, A2R⟩
          rw [hrec] at hrun
          dsimp only at hrun
          injection hrun with hpair
          injection hpair with hout hA2
          subst hout
          subst hA2
          have hlen2 : rest0.length ≤ n := by
            simp at hlen
            omega
          have hkeys2 : ∀ kx ∈ keyItems false rest0,
              kx.anchor = "" ∧ ¬kx.kind = .aliasKind := by
            intro kx hkx
            rw [keyItems_false] at hkx
            simp at hkx
          obtain ⟨W1, W2, W3, W4⟩ := IH rest0 hlen2 A1 outR A2R hrec hkeys2
          rw [show A1 = (partitionItem cfg shName 1 A c).2 by rw [hpi]] at W3 W4
          have hcomp := partition_inv_compose cfg shName 1 none c A
            (keyItems false rest0) (valueItems false rest0) outR A2R
            (by simp) W1 W2 W3 W4
          rw [hpi] at hcomp
          simp only [Option.toList, List.nil_append, keyItems_false,
            valueItems_false_cons] at hcomp ⊢
          exact hcomp
      | true =>
        cases rest0 with
        | nil =>
          rw [partitionLoop.eq_def] at hrun
          dsimp only at hrun
          exact absurd hrun (by simp)
        | cons item rest =>
          rw [partitionLoop.eq_def] at hrun
          dsimp only at hrun
          rcases hpi : partitionItem cfg shName 2 A item with ⟨keep, A1⟩
          rw [hpi] at hrun
          dsimp only at hrun
          cases hrec : partitionLoop cfg shName true rest A1 with
          | error e =>
            rw [hrec] at hrun
            exact absurd hrun (by simp)
          | ok pr =>
            rcases pr with ⟨outR, A2R⟩
            rw [hrec] at hrun
            dsimp only at hrun
            injection hrun with hpair
            injection hpair with hout hA2
            subst hout
            subst hA2
            have hlen2 : rest.length ≤ n := by
              simp at hlen
              omega
            have hkeyhead : c.anchor = "" ∧ ¬c.kind = .aliasKind :=
              hkeys c (by rw [keyItems_true_cons]; exact List.mem_cons_self _ _)
            have hkeys2 : ∀ kx ∈ keyItems true rest,
                kx.anchor = "" ∧ ¬kx.kind = .aliasKind := fun kx hkx =>
              hkeys kx (by rw [keyItems_true_cons]; exact List.mem_cons_of_mem _ hkx)
            obtain ⟨W1, W2, W3, W4⟩ := IH rest hlen2 A1 outR A2R hrec hkeys2
            rw [show A1 = (partitionItem cfg shName 2 A item).2 by rw [hpi]] at W3 W4
            have hkeysome : ∀ kx ∈ (some c).toList,
                kx.anchor = "" ∧ ¬kx.kind = .aliasKind := by
              intro kx hkx
              simp [Option.toList] at hkx
              rw [hkx]
              exact hkeyhead
            have hcomp := partition_inv_compose cfg shName 2 (some c) item A
              (keyItems true rest) (valueItems true rest) outR A2R
              hkeysome W1 W2 W3 W4
            rw [hpi] at hcomp
            simp only [Option.toList, List.cons_append, List.nil_append,
              keyItems_true_cons, valueItems_true_cons] at hcomp ⊢
            exact hcomp

/-- C2: in the partition step, an alias child survives exactly when the
anchor label it references has a positive tag in the anchors map at that
moment — independently of any hashing configuration, so aliases are never
hashed — and consequently, provided the incoming anchors map holds none of
the labels referenced by the container's aliases, every surviving alias's
anchor child also survives on this shard, and a label whose anchor
children are not assigned to this shard keeps neither those children nor
any alias to it. -/
theorem partition_alias_anchor_consistency (cfg : Config) (shName : Bytes)
    (isMapping : Bool) (cs : List YNode) (A : AnchorsMap)
    (out : List YNode) (A2 : AnchorsMap)
    (hrun : partitionLoop cfg shName isMapping cs A = .ok (out, A2))
    (hkeys : ∀ kx ∈ keyItems isMapping cs, kx.anchor = "" ∧ ¬kx.kind = .aliasKind)
    (hA : ∀ label target, YNode.aliasNode label target ∈ valueItems isMapping cs →
      alookup A label = none) :
    (∀ (cfg2 : Config) (step : Nat) (B : AnchorsMap) (label : String) (target : YNode),
      partitionItem cfg2 shName step B (.aliasNode label target) =
        (decide (0 < (alookup B label).getD 0), B)) ∧
    (∀ label target, YNode.aliasNode label target ∈ out →
      ∃ a, a ∈ out ∧ a.anchor = label ∧ Assigned cfg shName a) ∧
    (∀ label, ¬label = "" →
      (∀ a ∈ valueItems isMapping cs, a.anchor = label → ¬Assigned cfg shName a) →
      (∀ a ∈ out, ¬a.anchor = label) ∧
      (∀ target, YNode.aliasNode label target ∉ out)) := by
  have hn : cs.length ≤ cs.length := le_refl _
  obtain ⟨W1, W2, W3, W4⟩ :=
    partitionLoop_inv cfg shName isMapping cs.length cs hn A out A2 hrun hkeys
  have hAliasVal : ∀ label target, YNode.aliasNode label target ∈ out →
      YNode.aliasNode label target ∈ valueItems isMapping cs := by
    intro label target hmem
    rcases W1 _ hmem with h | h
    · have := (hkeys _ h).2
      simp [YNode.kind] at this
    · exact h
  have hsurv : ∀ label target, YNode.aliasNode label target ∈ out →
      ∃ a, a ∈ out ∧ a.anchor = label ∧ Assigned cfg shName a := by
    intro label target hmem
    rcases W3 label target hmem with h | h
    · rw [hA label target (hAliasVal label target hmem)] at h
      simp at h
    · exact h
  refine ⟨?_, hsurv, ?_⟩
  · intro cfg2 step B label target
    exact partitionItem_alias cfg2 shName step B (.aliasNode label target) rfl
  · intro label hlabel hnone
    have hnoanchor : ∀ a ∈ out, ¬a.anchor = label := by
      intro a hmem hanc
      have hassigned : Assigned cfg shName a := by
        refine W2 a hmem ?_
        rw [hanc]
        exact hlabel
      rcases W1 a hmem with h | h
      · rw [(hkeys a h).1] at hanc
        exact hlabel hanc.symm
      · exact hnone a h hanc hassigned
    refine ⟨hnoanchor, ?_⟩
    intro target hmem
    obtain ⟨a, hao, hanc, _⟩ := hsurv label target hmem
    exact hnoanchor a hao hanc

/-- The split-point content for the C2 witness: an anchored sequence
child `&L`, an alias `*L` to it, and a plain scalar. -/
def exCsC2 : List YNode :=
  [.sequenceNode "L" [.scalarNode "" "x"],
   .aliasNode "L" (.sequenceNode "L" [.scalarNode "" "x"]),
   .scalarNode "" "y"]

/-- Witness for C2 at a concrete configuration (constant hasher, shard
`[0]` keeps everything) and container content. -/
theorem partition_alias_anchor_consistency_witness :
    (∃ out A2, partitionLoop exCfgC7 [0] false exCsC2 [] = .ok (out, A2) ∧
      ((∀ (cfg2 : Config) (step : Nat) (B : AnchorsMap) (label : String) (target : YNode),
        partitionItem cfg2 [0] step B (.aliasNode label target) =
          (decide (0 < (alookup B label).getD 0), B)) ∧
      (∀ label target, YNode.aliasNode label target ∈ out →
        ∃ a, a ∈ out ∧ a.anchor = label ∧ Assigned exCfgC7 [0] a) ∧
      (∀ label, ¬label = "" →
        (∀ a ∈ valueItems false exCsC2, a.anchor = label → ¬Assigned exCfgC7 [0] a) →
        (∀ a ∈ out, ¬a.anchor = label) ∧
        (∀ target, YNode.aliasNode label target ∉ out)))) :=
  ⟨exCsC2, [("L", 1)], rfl,
    partition_alias_anchor_consistency exCfgC7 [0] false exCsC2 [] exCsC2 [("L", 1)]
      rfl
      (by intro kx hkx; rw [keyItems_false] at hkx; simp at hkx)
      (by intro label target hmem; rfl)⟩

end YP
